import Mathlib

/-
  Verification development for the layered UTXO cache (src/coins.cpp) and its
  node pool allocator. The cache view CCoinsViewCache is embedded as a state
  passing machine over a CoinsMap that mirrors the dense map layout used by
  the code: a hash index (outpoint to dense slot) plus a dense vector of
  (outpoint, entry) pairs. C++ moves of values that remain observable are
  modelled as copies; moved from slots that the code pops or never reads
  again are irrelevant to the theorems below.
-/

namespace UtxoCache

/-- Outpoint: pair of a transaction id and an output index. -/
structure COutPoint where
  txid : Nat
  n : Nat
deriving DecidableEq

/-- Modelled from the spec: the locking script is a byte list; a script is
provably unspendable when it starts with the OP RETURN byte or is oversized
(script.h is not under src). -/
def scriptIsUnspendable (s : List Nat) : Bool :=
  (decide (s ≠ []) && decide (s.headD 0 = 106)) || decide (s.length > 10000)

/-- Modelled from the spec: a Coin is (script, value, height, coinbase flag);
the empty script is the spent sentinel (coins.h is not under src). -/
structure Coin where
  script : List Nat
  value : Int
  height : Nat
  coinbase : Bool
deriving DecidableEq

/-- Spent test: empty script sentinel. -/
def Coin.IsSpent (c : Coin) : Bool := c.script.isEmpty

/-- Clear sets the spent sentinel, leaving height and coinbase untouched. -/
def Coin.Clear (c : Coin) : Coin := { c with script := [] }

/-- Modelled from the spec: a dynamic memory estimator for a coin; only the
additivity of the accounting matters, so the script length serves. -/
def Coin.DynamicMemoryUsage (c : Coin) : Int := c.script.length

/-- Cache entry: a coin plus the DIRTY and FRESH flag bits of the flag byte. -/
structure CacheEntry where
  coin : Coin
  dirty : Bool
  fresh : Bool
deriving DecidableEq

/-- Default constructed entry: default (spent) coin, zero flags. -/
def CacheEntry.empty : CacheEntry := ⟨⟨[], 0, 0, false⟩, false, false⟩

/-- Hash index of the dense map: outpoint to dense slot index. -/
abbrev HashIdx := List (COutPoint × Nat)

/-- Dense entry vector of the map. -/
abbrev Dense := List (COutPoint × CacheEntry)

/-- Lookup in the hash index (std unordered map find). -/
def idxLookup : HashIdx → COutPoint → Option Nat
  | [], _ => none
  | (a, b) :: rest, k => if a = k then some b else idxLookup rest k

/-- Erase a key from the hash index (std unordered map erase). -/
def idxErase : HashIdx → COutPoint → HashIdx
  | [], _ => []
  | (a, b) :: rest, k => if a = k then idxErase rest k else (a, b) :: idxErase rest k

/-- Insert or assign in the hash index (std unordered map bracket assign). -/
def idxUpdate : HashIdx → COutPoint → Nat → HashIdx
  | [], k, v => [(k, v)]
  | (a, b) :: rest, k, v => if a = k then (k, v) :: rest else (a, b) :: idxUpdate rest k v

/-- CCoinsMap as used by coins.cpp: hash index plus dense entry vector. -/
structure CCoinsMap where
  map : HashIdx
  data : Dense
deriving DecidableEq

/-- Empty CCoinsMap. -/
def CCoinsMap.empty : CCoinsMap := ⟨[], []⟩

/-- CCoinsViewCache state: the map, the running usage counter and the cached
best block hash (none models the null uint256). -/
structure CacheState where
  cacheCoins : CCoinsMap
  cachedCoinsUsage : Int
  hashBlock : Option Nat
deriving DecidableEq

/-- The initial cache state. -/
def CacheState.init : CacheState := ⟨CCoinsMap.empty, 0, none⟩

/-- The base view, abstracted as a partial map from outpoints to coins; a
returned spent coin models a base whose GetCoin succeeds with a spent record. -/
abbrev BaseStore := List (COutPoint × Coin)

/-- GetCoin of the base store. -/
def storeGet : BaseStore → COutPoint → Option Coin
  | [], _ => none
  | p :: rest, k => if p.1 = k then some p.2 else storeGet rest k

/-- Remove a key from the base store. -/
def storeErase : BaseStore → COutPoint → BaseStore
  | [], _ => []
  | p :: rest, k => if p.1 = k then storeErase rest k else p :: storeErase rest k

/-- Insert or overwrite a coin in the base store. -/
def storeUpdate : BaseStore → COutPoint → Coin → BaseStore
  | [], k, c => [(k, c)]
  | p :: rest, k, c => if p.1 = k then (k, c) :: rest else p :: storeUpdate rest k c

/-- Failure modes of the cache operations. An oob result models an out of
range dense vector access, which is undefined behavior in the C++ source. -/
inductive CoinsErr where
  | oob
  | overwriteUnspent
  | freshMisapplied
  | spentAdd
deriving DecidableEq

/-- CCoinsViewCache FetchCoin (coins.cpp lines 42 to 58): look the outpoint up
in the hash index; on a miss ask the base, and if the base has a record insert
it at the end of the dense vector, FRESH when the fetched coin is spent.
Returns the dense slot index and the (key, entry) pair at fetch time. -/
def FetchCoin (base : BaseStore) (s : CacheState) (op : COutPoint) :
    Except CoinsErr (CacheState × Option (Nat × (COutPoint × CacheEntry))) :=
  match idxLookup s.cacheCoins.map op with
  | some i =>
    match s.cacheCoins.data.get? i with
    | some pr => .ok (s, some (i, pr))
    | none => .error .oob
  | none =>
    match storeGet base op with
    | none => .ok (s, none)
    | some tmp =>
      let i := s.cacheCoins.data.length
      let e : CacheEntry := ⟨tmp, false, tmp.IsSpent⟩
      .ok ({ s with
              cacheCoins := ⟨s.cacheCoins.map ++ [(op, i)], s.cacheCoins.data ++ [(op, e)]⟩,
              cachedCoinsUsage := s.cachedCoinsUsage + tmp.DynamicMemoryUsage },
           some (i, (op, e)))

/-- CCoinsViewCache GetCoin (coins.cpp lines 60 to 67): fetch; when an entry is
found the out parameter is overwritten with the stored coin and the call
returns the negation of its spentness; on a miss the out parameter is kept. -/
def GetCoin (base : BaseStore) (s : CacheState) (op : COutPoint) (coinParam : Coin) :
    Except CoinsErr (CacheState × Bool × Coin) :=
  match FetchCoin base s op with
  | .error e => .error e
  | .ok (s1, none) => .ok (s1, false, coinParam)
  | .ok (s1, some (_, pr)) => .ok (s1, !pr.2.coin.IsSpent, pr.2.coin)

/-- CCoinsViewCache AddCoin (coins.cpp lines 69 to 109). The C++ asserts that
the added coin is unspent; a spent argument is modelled as the spentAdd error.
On the logic error path the C++ has already decremented the usage counter of
the pre existing entry; the error result drops the state, which no theorem
below observes. -/
def AddCoin (s : CacheState) (op : COutPoint) (coin : Coin) (possible_overwrite : Bool) :
    Except CoinsErr CacheState :=
  if coin.IsSpent then .error .spentAdd
  else if scriptIsUnspendable coin.script then .ok s
  else
    match idxLookup s.cacheCoins.map op with
    | some i =>
      match s.cacheCoins.data.get? i with
      | none => .error .oob
      | some pr =>
        if !possible_overwrite && !pr.2.coin.IsSpent then .error .overwriteUnspent
        else
          let fr := !possible_overwrite && !pr.2.dirty
          let e2 : CacheEntry := ⟨coin, true, pr.2.fresh || fr⟩
          .ok { s with
                cacheCoins := ⟨s.cacheCoins.map, s.cacheCoins.data.set i (pr.1, e2)⟩,
                cachedCoinsUsage := s.cachedCoinsUsage - pr.2.coin.DynamicMemoryUsage
                                      + coin.DynamicMemoryUsage }
    | none =>
      -- try emplace inserted a default entry (spent coin, zero flags) at the
      -- end of the dense vector, so the overwrite check cannot fire and
      -- fresh = not (flags and DIRTY) is the negation of possible_overwrite
      let i := s.cacheCoins.data.length
      let e2 : CacheEntry := ⟨coin, true, !possible_overwrite⟩
      .ok { s with
            cacheCoins := ⟨s.cacheCoins.map ++ [(op, i)], s.cacheCoins.data ++ [(op, e2)]⟩,
            cachedCoinsUsage := s.cachedCoinsUsage + coin.DynamicMemoryUsage }

/-- CCoinsViewCache SpendCoin (coins.cpp lines 128 to 150). On a FRESH entry
the code copies the last dense element into the freed slot, pops the vector
and erases the outpoint from the hash index; the hash index entry of the
moved element is NOT updated (contrast the fixup in BatchWrite). The moveout
parameter does not influence the state evolution and is omitted. -/
def SpendCoin (base : BaseStore) (s : CacheState) (op : COutPoint) :
    Except CoinsErr (CacheState × Bool) :=
  match FetchCoin base s op with
  | .error e => .error e
  | .ok (s1, none) => .ok (s1, false)
  | .ok (s1, some (i, pr)) =>
    let cm := s1.cacheCoins
    let usage1 := s1.cachedCoinsUsage - pr.2.coin.DynamicMemoryUsage
    if pr.2.fresh then
      match cm.data.getLast? with
      | none => .error .oob
      | some lastPr =>
        .ok ({ s1 with
               cacheCoins := ⟨idxErase cm.map op, (cm.data.set i lastPr).dropLast⟩,
               cachedCoinsUsage := usage1 }, true)
    else
      .ok ({ s1 with
             cacheCoins := ⟨cm.map, cm.data.set i (pr.1, ⟨pr.2.coin.Clear, true, pr.2.fresh⟩)⟩,
             cachedCoinsUsage := usage1 }, true)

/-- One loop iteration of CCoinsViewCache BatchWrite (coins.cpp lines 188 to
256), acting on the parent map and usage counter. In the branch that erases a
parent entry the code removes the key from the hash index, copies the last
dense element into the slot and redirects its hash index entry there, but
does NOT shorten the dense vector; this is transcribed as is. The erase flag
only selects move versus copy in the C++ and is value irrelevant here. -/
def batchWriteStep (acc : CCoinsMap × Int) (kc : COutPoint × CacheEntry) :
    Except CoinsErr (CCoinsMap × Int) :=
  let cm := acc.1
  let usage := acc.2
  if !kc.2.dirty then .ok acc
  else
    match idxLookup cm.map kc.1 with
    | none =>
      if kc.2.fresh && kc.2.coin.IsSpent then .ok acc
      else
        let i := cm.data.length
        let e : CacheEntry := ⟨kc.2.coin, true, kc.2.fresh⟩
        .ok (⟨cm.map ++ [(kc.1, i)], cm.data ++ [(kc.1, e)]⟩,
             usage + kc.2.coin.DynamicMemoryUsage)
    | some i =>
      match cm.data.get? i with
      | none => .error .oob
      | some pr =>
        if kc.2.fresh && !pr.2.coin.IsSpent then .error .freshMisapplied
        else if pr.2.fresh && pr.2.coin.IsSpent then
          -- NOTE: the code tests the PARENT entry coin for spentness here
          match cm.data.getLast? with
          | none => .error .oob
          | some lastPr =>
            .ok (⟨idxUpdate (idxErase cm.map kc.1) lastPr.1 i, cm.data.set i lastPr⟩,
                 usage - pr.2.coin.DynamicMemoryUsage)
        else
          .ok (⟨cm.map, cm.data.set i (pr.1, ⟨kc.2.coin, true, pr.2.fresh⟩)⟩,
               usage - pr.2.coin.DynamicMemoryUsage + kc.2.coin.DynamicMemoryUsage)

/-- CCoinsViewCache BatchWrite (coins.cpp lines 186 to 265): fold the step
over the dense vector of the child map, clear the child when erase is set,
install the incoming best block hash, and return true. -/
def BatchWrite (s : CacheState) (child : CCoinsMap) (hashIn : Option Nat) (er : Bool) :
    Except CoinsErr (CacheState × CCoinsMap × Bool) :=
  match child.data.foldlM batchWriteStep (s.cacheCoins, s.cachedCoinsUsage) with
  | .error e => .error e
  | .ok (cm, usage) =>
    .ok ({ cacheCoins := cm, cachedCoinsUsage := usage, hashBlock := hashIn },
         if er then CCoinsMap.empty else child, true)

/-- Modelled from the spec: the persistent base BatchWrite contract (spec
section 6 and 4.4.5; the on disk view is not under src). For every DIRTY
child entry a spent coin deletes the record and a live coin upserts it;
clean entries are skipped. -/
def storeBatchWrite (store : BaseStore) (child : CCoinsMap) : BaseStore :=
  child.data.foldl
    (fun st kc =>
      if kc.2.dirty then
        if kc.2.coin.IsSpent then storeErase st kc.1 else storeUpdate st kc.1 kc.2.coin
      else st)
    store

/-- CCoinsViewCache Flush (coins.cpp lines 267 to 278) over the modelled base
store: hand the whole map to the base, then reincarnate the empty map and
zero the usage counter. The modelled base write always succeeds. -/
def Flush (base : BaseStore) (s : CacheState) : BaseStore × CacheState :=
  (storeBatchWrite base s.cacheCoins,
   { cacheCoins := CCoinsMap.empty, cachedCoinsUsage := 0, hashBlock := s.hashBlock })

/-- A write operation of a workload W. -/
inductive WOp where
  | add (op : COutPoint) (c : Coin) (po : Bool)
  | spend (op : COutPoint)
deriving DecidableEq

/-- Apply one workload operation to the cache over a fixed base. -/
def applyCacheOp (base : BaseStore) (s : CacheState) (o : WOp) : Except CoinsErr CacheState :=
  match o with
  | .add op c po => AddCoin s op c po
  | .spend op => (SpendCoin base s op).map (fun r => r.1)

/-- Run a workload on the cache. -/
def runCache (base : BaseStore) (s : CacheState) (w : List WOp) : Except CoinsErr CacheState :=
  w.foldlM (applyCacheOp base) s

/-- Apply one workload operation directly to the base store: an add of a
spendable coin upserts the record, a spend deletes it. -/
def applyDirect (st : BaseStore) (o : WOp) : BaseStore :=
  match o with
  | .add op c _ => if scriptIsUnspendable c.script then st else storeUpdate st op c
  | .spend op => storeErase st op

/-- The (spent, DIRTY, FRESH) combination of an entry is one of the five legal
ones (coins.cpp SanityCheck, lines 338 to 353). -/
def legalTriple (e : CacheEntry) : Bool :=
  !((e.coin.IsSpent && !e.dirty && !e.fresh) ||
    (!e.coin.IsSpent && !e.dirty && e.fresh) ||
    (e.coin.IsSpent && e.dirty && e.fresh))

/-- All entries of a map carry legal flag combinations. -/
def flagsSane (cm : CCoinsMap) : Bool := cm.data.all (fun pr => legalTriple pr.2)

/-- The structural invariant of the dense map (spec section 4.3): sizes agree,
every hash index entry is in range and keyed like its dense slot, distinct
hash index keys, and every dense slot is found at its own index. -/
def WF (cm : CCoinsMap) : Prop :=
  cm.map.length = cm.data.length ∧
  (∀ p ∈ cm.map, p.2 < cm.data.length ∧ (cm.data.get? p.2).map Prod.fst = some p.1) ∧
  cm.map.Pairwise (fun a b => a.1 ≠ b.1) ∧
  (∀ j ∈ List.range cm.data.length, ∀ pr, cm.data.get? j = some pr →
     idxLookup cm.map pr.1 = some j)

instance (cm : CCoinsMap) : Decidable (WF cm) := by
  unfold WF; infer_instance

/-- The entry a dense map associates to an outpoint: hash index lookup
followed by the dense slot read. -/
def mapEntry (cm : CCoinsMap) (op : COutPoint) : Option CacheEntry :=
  match idxLookup cm.map op with
  | none => none
  | some i =>
    match cm.data.get? i with
    | none => none
    | some pr => some pr.2

/-- The entry the cache view associates to an outpoint. -/
def viewEntry (s : CacheState) (op : COutPoint) : Option CacheEntry :=
  mapEntry s.cacheCoins op

/-- There is an unspent entry at the outpoint. -/
def hasUnspentEntry (s : CacheState) (op : COutPoint) : Bool :=
  match viewEntry s op with
  | some e => !e.coin.IsSpent
  | none => false

/-- There is an entry with zero flags at the outpoint. -/
def hasCleanEntry (s : CacheState) (op : COutPoint) : Bool :=
  match viewEntry s op with
  | some e => !e.dirty && !e.fresh
  | none => false

/-- The FRESH bit AddCoin is specified to leave on the entry: the previous
FRESH bit, or newly set when possible_overwrite is false and the pre existing
entry (if any) was not DIRTY. -/
def freshSpec (s : CacheState) (op : COutPoint) (po : Bool) : Bool :=
  match viewEntry s op with
  | some e => e.fresh || (!po && !e.dirty)
  | none => !po

/-- Modelled from the spec: erase by iterator of the combined CCoinsMap
container (spec section 4.3: swap with last plus index fixup; coins.h is not
under src). Used by Uncache, which goes through the container interface. -/
def combinedErase (cm : CCoinsMap) (op : COutPoint) (i : Nat) : CCoinsMap :=
  if i + 1 = cm.data.length then
    ⟨idxErase cm.map op, cm.data.dropLast⟩
  else
    match cm.data.getLast? with
    | none => cm
    | some lastPr =>
      ⟨idxUpdate (idxErase cm.map op) lastPr.1 i, (cm.data.set i lastPr).dropLast⟩

/-- CCoinsViewCache Uncache (coins.cpp lines 297 to 310): erase the entry via
the container interface exactly when it exists with zero flags, subtracting
its usage; otherwise do nothing. -/
def Uncache (s : CacheState) (op : COutPoint) : CacheState :=
  match idxLookup s.cacheCoins.map op with
  | none => s
  | some i =>
    match s.cacheCoins.data.get? i with
    | none => s
    | some pr =>
      if !pr.2.dirty && !pr.2.fresh then
        { s with cacheCoins := combinedErase s.cacheCoins op i,
                 cachedCoinsUsage := s.cachedCoinsUsage - pr.2.coin.DynamicMemoryUsage }
      else s

/-
  Concrete inputs used by the counterexample and witness theorems below.
-/

/-- A first outpoint. -/
def opA : COutPoint := ⟨1, 0⟩
/-- A second outpoint. -/
def opB : COutPoint := ⟨2, 0⟩
/-- A third outpoint. -/
def opC : COutPoint := ⟨3, 0⟩
/-- A fourth outpoint. -/
def opD : COutPoint := ⟨4, 0⟩

/-- A live coin with a one byte script. -/
def coinA : Coin := ⟨[10], 1, 0, false⟩
/-- A second live coin. -/
def coinB : Coin := ⟨[11], 2, 0, false⟩
/-- A third live coin. -/
def coinC : Coin := ⟨[12], 3, 0, false⟩
/-- A fourth live coin. -/
def coinD : Coin := ⟨[13], 4, 0, false⟩
/-- A spent coin (empty script sentinel). -/
def spentCoin : Coin := ⟨[], 0, 0, false⟩

/-- Workload for the flush equivalence counterexample: the spend of opA is a
FRESH erase that leaves the hash index entry of opB pointing at a stale slot,
so the later spend of opB destroys the entry of opC instead. -/
def wOps : List WOp :=
  [.add opA coinA false, .add opB coinB false, .spend opA,
   .add opC coinC false, .add opD coinD false, .spend opB]

/-- The store observed through the cache: run the workload on a cache over the
empty base, then flush. -/
def observedStore : Option BaseStore :=
  (runCache [] CacheState.init wOps).toOption.map (fun s => storeBatchWrite [] s.cacheCoins)

/-- The store produced by applying the workload directly to the base. -/
def directStore : BaseStore := wOps.foldl applyDirect []

/-- Workload for the index integrity counterexample. -/
def wOps2 : List WOp := [.add opA coinA false, .add opB coinB false, .spend opA]

/-- Child map whose single entry is a spent DIRTY tombstone for opA, as a
child cache holds after fetching a live coin from its parent and spending it. -/
def c3Child : CCoinsMap := ⟨[(opA, 0)], [(opA, ⟨coinA.Clear, true, false⟩)]⟩

/-- Parent state after the run AddCoin opA coinA false followed by the batch
write of c3Child. -/
def c3Run : Option CacheState :=
  ((AddCoin CacheState.init opA coinA false).bind
    (fun s1 => (BatchWrite s1 c3Child none true).map (fun out => out.1))).toOption

/-- Parent state whose entry for opA was fetched from a base holding only a
spent record (so it is spent and FRESH with zero DIRTY), next to a clean
live entry for opB. -/
def c4Parent : CacheState :=
  ⟨⟨[(opA, 0), (opB, 1)],
    [(opA, ⟨spentCoin, false, true⟩), (opB, ⟨coinB, false, false⟩)]⟩, 1, none⟩

/-- Child map holding a re added live coin for opA: DIRTY and FRESH. -/
def c4Child : CCoinsMap := ⟨[(opA, 0)], [(opA, ⟨coinC, true, true⟩)]⟩

/-- A cache state holding a single spent DIRTY entry at opA (a tombstone that
has not yet reached the base), used by witnesses for GetCoin and AddCoin. -/
def sSp : CacheState := ⟨⟨[(opA, 0)], [(opA, ⟨spentCoin, true, false⟩)]⟩, 0, none⟩

/-- A well formed two entry cache state: a clean live entry for opA in slot 0
and a DIRTY live entry for opB in slot 1; used by the Uncache witness. -/
def sC8 : CacheState :=
  ⟨⟨[(opA, 0), (opB, 1)], [(opA, ⟨coinA, false, false⟩), (opB, ⟨coinB, true, false⟩)]⟩,
   2, some 7⟩

namespace PoolSpec

/-- Modelled from the spec: PoolResource (support/allocators/pool.h is not
under src, only its tests in src/test/pool_tests.cpp are). Spec section 4.1:
per size class LIFO free lists indexed by bytes / alignment, a bump cursor
into the current block, blocks kept until destruction. Addresses are abstract
naturals; block number b spans [b * chunkBytes, (b+1) * chunkBytes). -/
structure PoolResource where
  maxBlockBytes : Nat
  alignment : Nat
  chunkBytes : Nat
  freeLists : List (List Nat)
  blocks : Nat
  bumpPtr : Nat
  bumpEnd : Nat
deriving DecidableEq

/-- A fresh pool with the given configuration and no blocks. -/
def PoolResource.init (maxB align chunk : Nat) : PoolResource :=
  ⟨maxB, align, chunk, List.replicate (maxB / align + 1) [], 0, 0, 0⟩

/-- Result of an allocation request. -/
inductive AllocResult where
  | fromFree (addr : Nat)
  | fromBump (addr : Nat)
  | delegated
deriving DecidableEq

/-- The request is inside the small allocation envelope of the pool. -/
def PoolResource.eligible (r : PoolResource) (bytes align : Nat) : Bool :=
  decide (bytes ≤ r.maxBlockBytes) && decide (align = r.alignment)

/-- Modelled from the spec: the allocation algorithm of section 4.1. Inside
the envelope, pop the head of the size class free list when non empty,
otherwise carve bytes off the bump cursor, allocating a new block first when
the current block lacks space; outside the envelope, delegate. -/
def PoolResource.Allocate (r : PoolResource) (bytes align : Nat) :
    AllocResult × PoolResource :=
  if r.eligible bytes align then
    let idx := bytes / r.alignment
    match r.freeLists.get? idx with
    | some (h :: t) => (.fromFree h, { r with freeLists := r.freeLists.set idx t })
    | _ =>
      if r.bumpPtr + bytes ≤ r.bumpEnd then
        (.fromBump r.bumpPtr, { r with bumpPtr := r.bumpPtr + bytes })
      else
        let base := r.blocks * r.chunkBytes
        (.fromBump base,
         { r with blocks := r.blocks + 1, bumpPtr := base + bytes,
                  bumpEnd := base + r.chunkBytes })
  else (.delegated, r)

/-- Modelled from the spec: the deallocation algorithm of section 4.1. Inside
the envelope the freed region becomes the new head of its size class list;
outside it is forwarded upstream and the pool is untouched. -/
def PoolResource.Deallocate (r : PoolResource) (addr bytes align : Nat) : PoolResource :=
  if r.eligible bytes align then
    let idx := bytes / r.alignment
    { r with freeLists := r.freeLists.set idx (addr :: (r.freeLists.getD idx [])) }
  else r

/-- A pool used by the pool witness: alignment 8, envelope up to 64 bytes,
blocks of 1024 bytes, one address parked on the free list of class 1. -/
def poolW : PoolResource :=
  { PoolResource.init 64 8 1024 with
      freeLists := (List.replicate 9 ([] : List Nat)).set 1 [500] }

end PoolSpec

/-
  Helper lemmas on the association list operations.
-/

theorem idxLookup_mem {m : HashIdx} {k : COutPoint} {v : Nat}
    (h : idxLookup m k = some v) : (k, v) ∈ m := by
  induction m with
  | nil => exact absurd h (by rw [idxLookup]; exact Option.noConfusion)
  | cons p rest ih =>
    obtain ⟨a, b⟩ := p
    rw [idxLookup] at h
    by_cases hp : a = k
    · rw [if_pos hp] at h
      injection h with h2
      subst h2
      subst hp
      exact List.mem_cons_self _ _
    · rw [if_neg hp] at h
      exact List.mem_cons_of_mem _ (ih h)

theorem idxLookup_erase_self (m : HashIdx) (k : COutPoint) :
    idxLookup (idxErase m k) k = none := by
  induction m with
  | nil => rfl
  | cons p rest ih =>
    obtain ⟨a, b⟩ := p
    rw [idxErase]
    by_cases hp : a = k
    · rw [if_pos hp]; exact ih
    · rw [if_neg hp, idxLookup, if_neg hp]; exact ih

theorem idxLookup_erase_ne (m : HashIdx) (k q : COutPoint) (h : q ≠ k) :
    idxLookup (idxErase m k) q = idxLookup m q := by
  induction m with
  | nil => rfl
  | cons p rest ih =>
    obtain ⟨a, b⟩ := p
    rw [idxErase]
    by_cases hp : a = k
    · rw [if_pos hp, ih, idxLookup, if_neg (by rw [hp]; exact fun hh => h hh.symm)]
    · rw [if_neg hp, idxLookup, idxLookup]
      by_cases hq : a = q
      · rw [if_pos hq, if_pos hq]
      · rw [if_neg hq, if_neg hq, ih]

theorem idxErase_of_lookup_none (m : HashIdx) (k : COutPoint)
    (h : idxLookup m k = none) : idxErase m k = m := by
  induction m with
  | nil => rfl
  | cons p rest ih =>
    obtain ⟨a, b⟩ := p
    rw [idxLookup] at h
    by_cases hp : a = k
    · rw [if_pos hp] at h; exact absurd h Option.noConfusion
    · rw [if_neg hp] at h
      rw [idxErase, if_neg hp, ih h]

theorem idxErase_append (a b : HashIdx) (k : COutPoint) :
    idxErase (a ++ b) k = idxErase a k ++ idxErase b k := by
  induction a with
  | nil => rfl
  | cons p rest ih =>
    obtain ⟨x, y⟩ := p
    rw [List.cons_append, idxErase, idxErase]
    by_cases hp : x = k
    · rw [if_pos hp, if_pos hp, ih]
    · rw [if_neg hp, if_neg hp, ih, List.cons_append]

theorem idxLookup_update_self (m : HashIdx) (k : COutPoint) (v : Nat) :
    idxLookup (idxUpdate m k v) k = some v := by
  induction m with
  | nil => rw [idxUpdate, idxLookup, if_pos rfl]
  | cons p rest ih =>
    obtain ⟨a, b⟩ := p
    rw [idxUpdate]
    by_cases hp : a = k
    · rw [if_pos hp, idxLookup, if_pos rfl]
    · rw [if_neg hp, idxLookup, if_neg hp]; exact ih

theorem idxLookup_update_ne (m : HashIdx) (k q : COutPoint) (v : Nat) (h : q ≠ k) :
    idxLookup (idxUpdate m k v) q = idxLookup m q := by
  induction m with
  | nil =>
    have hk : ¬(k = q) := fun hh => h hh.symm
    simp [idxUpdate, idxLookup, hk]
  | cons p rest ih =>
    obtain ⟨a, b⟩ := p
    rw [idxUpdate]
    by_cases hp : a = k
    · rw [if_pos hp, idxLookup, idxLookup, if_neg (fun hh => h hh.symm),
          if_neg (by rw [hp]; exact fun hh => h hh.symm)]
    · rw [if_neg hp, idxLookup, idxLookup]
      by_cases hq : a = q
      · rw [if_pos hq, if_pos hq]
      · rw [if_neg hq, if_neg hq, ih]

theorem idxLookup_append_of_none (m1 m2 : HashIdx) (k : COutPoint)
    (h : idxLookup m1 k = none) : idxLookup (m1 ++ m2) k = idxLookup m2 k := by
  induction m1 with
  | nil => rfl
  | cons p rest ih =>
    obtain ⟨a, b⟩ := p
    rw [idxLookup] at h
    by_cases hp : a = k
    · rw [if_pos hp] at h; exact absurd h Option.noConfusion
    · rw [if_neg hp] at h
      rw [List.cons_append, idxLookup, if_neg hp, ih h]

theorem set_concat_length {α : Type} (d : List α) (x y : α) :
    (d ++ [x]).set d.length y = d ++ [y] := by
  induction d with
  | nil => rfl
  | cons a rest ih => simp [List.set, ih]

theorem dropLast_get? {α : Type} (l : List α) (j : Nat) (h : j < l.length - 1) :
    l.dropLast.get? j = l.get? j := by
  rw [List.dropLast_eq_take]
  simp [List.getElem?_take, h]

theorem set_get?_ne {α : Type} (l : List α) (i j : Nat) (a : α) (h : i ≠ j) :
    (l.set i a).get? j = l.get? j := by
  rw [List.get?_eq_getElem?, List.get?_eq_getElem?, List.getElem?_set_ne h]

theorem set_get?_self {α : Type} (l : List α) (i : Nat) (a : α) (h : i < l.length) :
    (l.set i a).get? i = some a := by
  rw [List.get?_eq_getElem?]
  simp [List.getElem?_set, h]

theorem mapEntry_none_of_lookup_none (cm : CCoinsMap) (op : COutPoint)
    (hl : idxLookup cm.map op = none) : mapEntry cm op = none := by
  unfold mapEntry
  rw [hl]

theorem mapEntry_none_of_get_none (cm : CCoinsMap) (op : COutPoint) (i : Nat)
    (hl : idxLookup cm.map op = some i) (hg : cm.data.get? i = none) :
    mapEntry cm op = none := by
  unfold mapEntry
  rw [hl]
  dsimp only
  rw [hg]

theorem mapEntry_some (cm : CCoinsMap) (op : COutPoint) (i : Nat)
    (pr : COutPoint × CacheEntry)
    (hl : idxLookup cm.map op = some i) (hg : cm.data.get? i = some pr) :
    mapEntry cm op = some pr.2 := by
  unfold mapEntry
  rw [hl]
  dsimp only
  rw [hg]

theorem FetchCoin_hit (base : BaseStore) (s : CacheState) (op : COutPoint) (i : Nat)
    (pr : COutPoint × CacheEntry)
    (hl : idxLookup s.cacheCoins.map op = some i)
    (hg : s.cacheCoins.data.get? i = some pr) :
    FetchCoin base s op = .ok (s, some (i, pr)) := by
  unfold FetchCoin
  rw [hl]
  dsimp only
  rw [hg]

theorem SpendCoin_fresh (base : BaseStore) (s : CacheState) (op : COutPoint) (i : Nat)
    (pr lastPr : COutPoint × CacheEntry)
    (hf : FetchCoin base s op = .ok (s, some (i, pr)))
    (hfr : pr.2.fresh = true)
    (hl : s.cacheCoins.data.getLast? = some lastPr) :
    SpendCoin base s op =
      .ok ({ s with
             cacheCoins := ⟨idxErase s.cacheCoins.map op,
                            (s.cacheCoins.data.set i lastPr).dropLast⟩,
             cachedCoinsUsage := s.cachedCoinsUsage - pr.2.coin.DynamicMemoryUsage }, true) := by
  unfold SpendCoin
  rw [hf]
  dsimp only
  rw [hfr, if_pos rfl, hl]

/-
  Claim theorems.
-/

/-- C1: the flush equivalence fails on the code. Running the workload wOps on
a cache over the empty base and flushing loses the coin added at opC (the
spend of opB followed the stale dense index left by the earlier FRESH erase
and destroyed the entry of opC instead), while the direct application of the
same workload to the base keeps opC. -/
theorem C1_flush_equivalence_fails :
    observedStore.map (fun st => storeGet st opC) = some none ∧
    storeGet directStore opC = some coinC := by decide

/-- C2: the dense map invariant is violated by SpendCoin. After the workload
wOps2 (add opA, add opB, spend opA) the hash index still maps opB to dense
slot 1 while the dense vector has a single entry, so the stored index is out
of range and the map is not well formed. -/
theorem C2_index_integrity_fails :
    (runCache [] CacheState.init wOps2).toOption.map
        (fun s => (idxLookup s.cacheCoins.map opB, s.cacheCoins.data.length,
                   decide (WF s.cacheCoins)))
      = some (some 1, 1, false) := by decide

/-- C3: the flag sanity invariant is violated by BatchWrite. Adding coinA at
opA (entry DIRTY and FRESH) and then batch writing a child tombstone for opA
leaves the parent entry (spent, DIRTY, FRESH), one of the three combinations
SanityCheck asserts impossible. -/
theorem C3_sanity_fails_after_batchwrite :
    c3Run.map (fun s => (flagsSane s.cacheCoins,
        s.cacheCoins.data.map (fun pr => (pr.2.coin.IsSpent, pr.2.dirty, pr.2.fresh))))
      = some (false, [(true, true, true)]) := by decide

/-- C4: the erase condition of BatchWrite is wrong. With a parent entry for
opA that is FRESH and spent and a child entry that re adds the live coinC,
the code erases the parent entry outright, dropping the child coin; the
claim requires the erase only when the child entry is spent, so here the
parent should have ended up holding coinC. -/
theorem C4_erase_tests_parent_spentness :
    (BatchWrite c4Parent c4Child none true).toOption.map
        (fun out => (idxLookup out.1.cacheCoins.map opA,
                     out.1.cacheCoins.data.any (fun pr => decide (pr.2.coin = coinC))))
      = some (none, false) := by decide

/-- C9: whenever BatchWrite returns (rather than raising), it returns true;
a false flush or sync result can only come from the base view. -/
theorem C9_batchwrite_returns_true (s : CacheState) (child : CCoinsMap)
    (hashIn : Option Nat) (er : Bool) (out : CacheState × CCoinsMap × Bool)
    (h : BatchWrite s child hashIn er = .ok out) : out.2.2 = true := by
  unfold BatchWrite at h
  cases hfold : child.data.foldlM batchWriteStep (s.cacheCoins, s.cachedCoinsUsage) with
  | error e => rw [hfold] at h; exact absurd h Except.noConfusion
  | ok pr =>
    rw [hfold] at h
    injection h with h2
    rw [← h2]

/-- C9 witness: a batch write of the empty child map into the initial cache
returns with the true flag. -/
theorem C9_batchwrite_returns_true_witness :
    ((⟨CCoinsMap.empty, 0, none⟩ : CacheState), CCoinsMap.empty, true).2.2 = true :=
  C9_batchwrite_returns_true CacheState.init CCoinsMap.empty none true _ rfl

/-- C7: the pool allocation algorithm. The pool always keeps
maxBlockBytes / alignment + 1 free lists; an eligible request (bytes within
the envelope, alignment equal to the pool alignment) is never delegated: it
pops the head of its size class list when non empty, and otherwise carves
bytes off the bump cursor, opening a new block exactly when the current one
lacks space; deallocation pushes the region back on the head of its size
class list; requests outside the envelope are delegated with the pool state
untouched. -/
theorem C7_poolresource_algorithm (r : PoolSpec.PoolResource) (bytes align addr : Nat)
    (hlen : r.freeLists.length = r.maxBlockBytes / r.alignment + 1) :
    (∀ mb al ch, (PoolSpec.PoolResource.init mb al ch).freeLists.length = mb / al + 1) ∧
    ((r.Allocate bytes align).2.freeLists.length = r.maxBlockBytes / r.alignment + 1 ∧
     (r.Deallocate addr bytes align).freeLists.length
       = r.maxBlockBytes / r.alignment + 1) ∧
    (r.eligible bytes align = false →
       r.Allocate bytes align = (.delegated, r) ∧ r.Deallocate addr bytes align = r) ∧
    (r.eligible bytes align = true →
       (∀ h t, r.freeLists.get? (bytes / r.alignment) = some (h :: t) →
          r.Allocate bytes align
            = (.fromFree h,
               { r with freeLists := r.freeLists.set (bytes / r.alignment) t })) ∧
       (r.freeLists.get? (bytes / r.alignment) = some [] →
          (r.bumpPtr + bytes ≤ r.bumpEnd →
             r.Allocate bytes align
               = (.fromBump r.bumpPtr, { r with bumpPtr := r.bumpPtr + bytes })) ∧
          (¬ r.bumpPtr + bytes ≤ r.bumpEnd →
             r.Allocate bytes align
               = (.fromBump (r.blocks * r.chunkBytes),
                  { r with blocks := r.blocks + 1,
                           bumpPtr := r.blocks * r.chunkBytes + bytes,
                           bumpEnd := r.blocks * r.chunkBytes + r.chunkBytes }))) ∧
       (r.Allocate bytes align).1 ≠ .delegated ∧
       r.Deallocate addr bytes align
         = { r with freeLists := r.freeLists.set (bytes / r.alignment)
                       (addr :: r.freeLists.getD (bytes / r.alignment) []) }) := by
  refine ⟨?_, ⟨?_, ?_⟩, ?_, ?_⟩
  · intro mb al ch
    simp [PoolSpec.PoolResource.init]
  · unfold PoolSpec.PoolResource.Allocate
    by_cases hel : r.eligible bytes align = true
    · rw [if_pos hel]
      dsimp only
      cases hfl : r.freeLists.get? (bytes / r.alignment) with
      | none =>
        dsimp only
        by_cases hfit : r.bumpPtr + bytes ≤ r.bumpEnd
        · rw [if_pos hfit]; simpa using hlen
        · rw [if_neg hfit]; simpa using hlen
      | some l =>
        cases l with
        | nil =>
          dsimp only
          by_cases hfit : r.bumpPtr + bytes ≤ r.bumpEnd
          · rw [if_pos hfit]; simpa using hlen
          · rw [if_neg hfit]; simpa using hlen
        | cons h t => simpa using hlen
    · rw [if_neg hel]; simpa using hlen
  · unfold PoolSpec.PoolResource.Deallocate
    by_cases hel : r.eligible bytes align = true
    · rw [if_pos hel]; simpa using hlen
    · rw [if_neg hel]; simpa using hlen
  · intro hel
    constructor
    · unfold PoolSpec.PoolResource.Allocate
      rw [hel]
      rfl
    · unfold PoolSpec.PoolResource.Deallocate
      rw [hel]
      rfl
  · intro hel
    refine ⟨?_, ?_, ?_, ?_⟩
    · intro h t hfl
      unfold PoolSpec.PoolResource.Allocate
      rw [hel, if_pos rfl]
      dsimp only
      rw [hfl]
    · intro hfl
      constructor
      · intro hfit
        unfold PoolSpec.PoolResource.Allocate
        rw [hel, if_pos rfl]
        dsimp only
        rw [hfl]
        dsimp only
        rw [if_pos hfit]
      · intro hfit
        unfold PoolSpec.PoolResource.Allocate
        rw [hel, if_pos rfl]
        dsimp only
        rw [hfl]
        dsimp only
        rw [if_neg hfit]
    · unfold PoolSpec.PoolResource.Allocate
      rw [hel, if_pos rfl]
      dsimp only
      cases hfl : r.freeLists.get? (bytes / r.alignment) with
      | none =>
        dsimp only
        split <;> simp
      | some l =>
        cases l with
        | nil =>
          dsimp only
          split <;> simp
        | cons h t => simp
    · unfold PoolSpec.PoolResource.Deallocate
      rw [hel, if_pos rfl]

/-- C7 witness: on the witness pool, an eligible 8 byte request pops the
parked address 500 off the size class 1 free list. -/
theorem C7_poolresource_algorithm_witness :
    PoolSpec.PoolResource.Allocate PoolSpec.poolW 8 8
      = (.fromFree 500,
         { PoolSpec.poolW with freeLists := PoolSpec.poolW.freeLists.set 1 [] }) :=
  ((C7_poolresource_algorithm PoolSpec.poolW 8 8 0 (by decide)).2.2.2
      (by decide)).1 500 [] (by decide)

/-- C10: GetCoin returns true exactly when the fetched entry holds an unspent
coin, and whenever any entry is found, spent included, the out parameter is
overwritten with the stored coin; on a miss it is left untouched. -/
theorem C10_getcoin_spec (base : BaseStore) (s : CacheState) (op : COutPoint)
    (coinParam : Coin) (s2 : CacheState) (r : Bool) (cOut : Coin)
    (h : GetCoin base s op coinParam = .ok (s2, r, cOut)) :
    ∀ res, FetchCoin base s op = .ok res →
      s2 = res.1 ∧
      (match res.2 with
       | none => r = false ∧ cOut = coinParam
       | some (_, pr) => (r = true ↔ pr.2.coin.IsSpent = false) ∧ cOut = pr.2.coin) := by
  intro res hres
  obtain ⟨s1, o⟩ := res
  unfold GetCoin at h
  rw [hres] at h
  cases o with
  | none =>
    injection h with h2
    injection h2 with ha hbc
    injection hbc with hb hc
    exact ⟨ha.symm, hb.symm, hc.symm⟩
  | some v =>
    obtain ⟨i, pr⟩ := v
    injection h with h2
    injection h2 with ha hbc
    injection hbc with hb hc
    refine ⟨ha.symm, ?_, hc.symm⟩
    rw [← hb]
    cases hspent : pr.2.coin.IsSpent <;> simp [hspent]

/-- C10 witness: on a cache holding a spent DIRTY entry at opA, GetCoin
returns false yet the out parameter has been overwritten with the spent coin. -/
theorem C10_getcoin_spec_witness :
    sSp = sSp ∧ ((false = true ↔ spentCoin.IsSpent = false) ∧ spentCoin = spentCoin) :=
  C10_getcoin_spec [] sSp opA coinA sSp false spentCoin rfl
    (sSp, some (0, (opA, ⟨spentCoin, true, false⟩))) rfl

/-- C6: on an outpoint with no entry in the map and no record in the base,
AddCoin of a spendable coin with possible_overwrite false followed directly
by SpendCoin returns true from the spend and leaves neither a hash index
entry nor a dense slot for the outpoint. -/
theorem C6_add_spend_cancel (base : BaseStore) (s : CacheState) (op : COutPoint) (coin : Coin)
    (h1 : idxLookup s.cacheCoins.map op = none)
    (h2 : ∀ pr ∈ s.cacheCoins.data, pr.1 ≠ op)
    (h3 : coin.IsSpent = false)
    (h4 : scriptIsUnspendable coin.script = false)
    (_hb : storeGet base op = none) :
    ((AddCoin s op coin false).toOption.bind (fun s1 => (SpendCoin base s1 op).toOption)).map
        (fun r => (r.2, idxLookup r.1.cacheCoins.map op,
                   r.1.cacheCoins.data.all (fun pr => decide (pr.1 ≠ op))))
      = some (true, none, true) := by
  have hadd : AddCoin s op coin false =
      .ok { s with
            cacheCoins := ⟨s.cacheCoins.map ++ [(op, s.cacheCoins.data.length)],
                           s.cacheCoins.data ++ [(op, ⟨coin, true, true⟩)]⟩,
            cachedCoinsUsage := s.cachedCoinsUsage + coin.DynamicMemoryUsage } := by
    simp [AddCoin, h3, h4, h1]
  have hmap : idxLookup (s.cacheCoins.map ++ [(op, s.cacheCoins.data.length)]) op
      = some s.cacheCoins.data.length := by
    rw [idxLookup_append_of_none _ _ _ h1, idxLookup, if_pos rfl]
  have hdata : (s.cacheCoins.data ++ [(op, (⟨coin, true, true⟩ : CacheEntry))]).get?
      s.cacheCoins.data.length = some (op, ⟨coin, true, true⟩) := by
    simp
  have hfetch := FetchCoin_hit base
    { s with
      cacheCoins := ⟨s.cacheCoins.map ++ [(op, s.cacheCoins.data.length)],
                     s.cacheCoins.data ++ [(op, ⟨coin, true, true⟩)]⟩,
      cachedCoinsUsage := s.cachedCoinsUsage + coin.DynamicMemoryUsage } op
    s.cacheCoins.data.length (op, ⟨coin, true, true⟩) hmap hdata
  have hlast : (s.cacheCoins.data ++ [(op, (⟨coin, true, true⟩ : CacheEntry))]).getLast?
      = some (op, ⟨coin, true, true⟩) := by
    simp
  have hspend := SpendCoin_fresh base
    { s with
      cacheCoins := ⟨s.cacheCoins.map ++ [(op, s.cacheCoins.data.length)],
                     s.cacheCoins.data ++ [(op, ⟨coin, true, true⟩)]⟩,
      cachedCoinsUsage := s.cachedCoinsUsage + coin.DynamicMemoryUsage } op
    s.cacheCoins.data.length (op, ⟨coin, true, true⟩) (op, ⟨coin, true, true⟩)
    hfetch rfl hlast
  have herase : idxErase (s.cacheCoins.map ++ [(op, s.cacheCoins.data.length)]) op
      = s.cacheCoins.map := by
    rw [idxErase_append, idxErase_of_lookup_none _ _ h1, idxErase, if_pos rfl, idxErase,
        List.append_nil]
  have hall : s.cacheCoins.data.all (fun pr => decide (pr.1 ≠ op)) = true := by
    rw [List.all_eq_true]
    intro pr hpr
    simpa using h2 pr hpr
  rw [hadd]
  simp only [Except.toOption, Option.bind]
  rw [hspend]
  simp only [Except.toOption, Option.map]
  rw [set_concat_length] at *
  simp only [List.dropLast_concat, herase]
  rw [h1, hall]

/-- C5: AddCoin of an unspent coin leaves the cache untouched when the script
is unspendable; raises the overwrite logic error when possible_overwrite is
false and an unspent entry exists at the outpoint; and otherwise succeeds,
leaving at the outpoint the new coin with DIRTY set and FRESH equal to the
previous FRESH bit or, when possible_overwrite is false and the pre existing
entry (if any) was not DIRTY, newly set. -/
theorem C5_addcoin_policy (s : CacheState) (op : COutPoint) (coin : Coin) (po : Bool)
    (hsp : coin.IsSpent = false)
    (hin : ∀ i, idxLookup s.cacheCoins.map op = some i → i < s.cacheCoins.data.length) :
    (scriptIsUnspendable coin.script = true → AddCoin s op coin po = .ok s) ∧
    (scriptIsUnspendable coin.script = false → po = false → hasUnspentEntry s op = true →
       AddCoin s op coin po = .error .overwriteUnspent) ∧
    (scriptIsUnspendable coin.script = false → (po = true ∨ hasUnspentEntry s op = false) →
       (AddCoin s op coin po).toOption.map (fun s2 => viewEntry s2 op)
         = some (some ⟨coin, true, freshSpec s op po⟩)) := by
  refine ⟨?_, ?_, ?_⟩
  · intro hu
    unfold AddCoin
    rw [hsp, if_neg (by simp), hu, if_pos rfl]
  · intro hu hpo hentry
    subst hpo
    unfold AddCoin
    rw [hsp, if_neg (by simp), hu, if_neg (by simp)]
    unfold hasUnspentEntry viewEntry at hentry
    cases hl : idxLookup s.cacheCoins.map op with
    | none =>
      rw [mapEntry_none_of_lookup_none _ _ hl] at hentry
      cases hentry
    | some i =>
      dsimp only
      cases hg : s.cacheCoins.data.get? i with
      | none =>
        rw [mapEntry_none_of_get_none _ _ _ hl hg] at hentry
        cases hentry
      | some pr =>
        rw [mapEntry_some _ _ _ _ hl hg] at hentry
        dsimp only at hentry ⊢
        rw [if_pos (by simpa using hentry)]
  · intro hu hside
    unfold AddCoin
    rw [hsp, if_neg (by simp), hu, if_neg (by simp)]
    cases hl : idxLookup s.cacheCoins.map op with
    | none =>
      dsimp only
      have hfs : freshSpec s op po = !po := by
        unfold freshSpec viewEntry
        rw [mapEntry_none_of_lookup_none _ _ hl]
      have hm : idxLookup (s.cacheCoins.map ++ [(op, s.cacheCoins.data.length)]) op
          = some s.cacheCoins.data.length := by
        rw [idxLookup_append_of_none _ _ _ hl, idxLookup, if_pos rfl]
      have hg2 : (s.cacheCoins.data ++ [(op, (⟨coin, true, !po⟩ : CacheEntry))]).get?
          s.cacheCoins.data.length = some (op, ⟨coin, true, !po⟩) := by
        simp
      simp only [Except.toOption, Option.map, hfs, viewEntry]
      exact congrArg some (mapEntry_some _ _ _ _ hm hg2)
    | some i =>
      have hlt := hin i hl
      dsimp only
      cases hg : s.cacheCoins.data.get? i with
      | none =>
        exact absurd (List.get?_eq_none.mp hg) (by omega)
      | some pr =>
        dsimp only
        have hnotun : (!po && !pr.2.coin.IsSpent) = false := by
          rcases hside with hpo | hent
          · rw [hpo]; rfl
          · unfold hasUnspentEntry viewEntry at hent
            rw [mapEntry_some _ _ _ _ hl hg] at hent
            dsimp only at hent
            rw [Bool.and_eq_false_iff]
            right
            simpa using hent
        rw [hnotun, if_neg (by simp)]
        have hfs : freshSpec s op po = (pr.2.fresh || (!po && !pr.2.dirty)) := by
          unfold freshSpec viewEntry
          rw [mapEntry_some _ _ _ _ hl hg]
        have hg2 : (s.cacheCoins.data.set i
            (pr.1, (⟨coin, true, pr.2.fresh || (!po && !pr.2.dirty)⟩ : CacheEntry))).get? i
            = some (pr.1, ⟨coin, true, pr.2.fresh || (!po && !pr.2.dirty)⟩) := by
          rw [List.get?_eq_getElem?]
          simp [List.getElem?_set, hlt]
        simp only [Except.toOption, Option.map, hfs, viewEntry]
        exact congrArg some
          (mapEntry_some
            ⟨s.cacheCoins.map,
             s.cacheCoins.data.set i
               (pr.1, ⟨coin, true, pr.2.fresh || (!po && !pr.2.dirty)⟩)⟩
            op i (pr.1, ⟨coin, true, pr.2.fresh || (!po && !pr.2.dirty)⟩) hl hg2)

/-- C5 witness: re adding coinA at opA over a spent DIRTY tombstone with
possible_overwrite false succeeds with DIRTY set and FRESH left clear. -/
theorem C5_addcoin_policy_witness :
    (AddCoin sSp opA coinA false).toOption.map (fun s2 => viewEntry s2 opA)
      = some (some ⟨coinA, true, freshSpec sSp opA false⟩) :=
  (C5_addcoin_policy sSp opA coinA false (by decide)
      (by
        intro i hi
        have h2 : (some 0 : Option Nat) = some i := hi
        have h3 := Option.some.inj h2
        subst h3
        decide)).2.2 (by decide) (Or.inr (by decide))

/-- C6 witness: on the empty cache over the empty base, adding coinA at opA
and spending it leaves no trace of opA and the spend reports true. -/
theorem C6_add_spend_cancel_witness :
    ((AddCoin CacheState.init opA coinA false).toOption.bind
        (fun s1 => (SpendCoin [] s1 opA).toOption)).map
        (fun r => (r.2, idxLookup r.1.cacheCoins.map opA,
                   r.1.cacheCoins.data.all (fun pr => decide (pr.1 ≠ opA))))
      = some (true, none, true) :=
  C6_add_spend_cancel [] CacheState.init opA coinA (by decide) (by decide) (by decide)
    (by decide) (by decide)

/-- C8: Uncache removes the entry at the outpoint exactly when it exists with
zero flags, subtracting its dynamic usage from the counter; when a flag is
set or no entry exists it is the identity; and in the removing case every
other association of the map and the best block hash are unchanged. -/
theorem C8_uncache_spec (s : CacheState) (op : COutPoint) (hwf : WF s.cacheCoins) :
    (∀ e, viewEntry s op = some e → e.dirty = false → e.fresh = false →
       viewEntry (Uncache s op) op = none ∧
       (∀ q, q ≠ op → viewEntry (Uncache s op) q = viewEntry s q) ∧
       (Uncache s op).cachedCoinsUsage = s.cachedCoinsUsage - e.coin.DynamicMemoryUsage ∧
       (Uncache s op).hashBlock = s.hashBlock) ∧
    (hasCleanEntry s op = false → Uncache s op = s) := by
  obtain ⟨hlen, hmem, hpw, hslot⟩ := hwf
  constructor
  · intro e hve hd hf
    unfold viewEntry at hve
    cases hl : idxLookup s.cacheCoins.map op with
    | none =>
      rw [mapEntry_none_of_lookup_none _ _ hl] at hve
      cases hve
    | some i =>
      cases hg : s.cacheCoins.data.get? i with
      | none =>
        rw [mapEntry_none_of_get_none _ _ _ hl hg] at hve
        cases hve
      | some pr =>
        rw [mapEntry_some _ _ _ _ hl hg] at hve
        have he := Option.some.inj hve
        subst he
        obtain ⟨hilt, hkey⟩ := hmem _ (idxLookup_mem hl)
        rw [hg] at hkey
        have hop : pr.1 = op := Option.some.inj hkey
        have hunc : Uncache s op =
            { s with cacheCoins := combinedErase s.cacheCoins op i,
                     cachedCoinsUsage := s.cachedCoinsUsage
                                           - pr.2.coin.DynamicMemoryUsage } := by
          unfold Uncache
          rw [hl]
          dsimp only
          rw [hg]
          dsimp only
          rw [if_pos (by simp [hd, hf])]
        by_cases hcase : i + 1 = s.cacheCoins.data.length
        · have hcomb : combinedErase s.cacheCoins op i =
              ⟨idxErase s.cacheCoins.map op, s.cacheCoins.data.dropLast⟩ := by
            unfold combinedErase
            rw [if_pos hcase]
          rw [hcomb] at hunc
          refine ⟨?_, ?_, ?_, ?_⟩
          · rw [hunc]
            unfold viewEntry
            dsimp only
            exact mapEntry_none_of_lookup_none _ _ (idxLookup_erase_self _ _)
          · intro q hq
            rw [hunc]
            unfold viewEntry
            dsimp only
            cases hlq : idxLookup s.cacheCoins.map q with
            | none =>
              have hlqn : idxLookup (idxErase s.cacheCoins.map op) q = none := by
                rw [idxLookup_erase_ne _ _ _ hq]
                exact hlq
              rw [mapEntry_none_of_lookup_none
                    ⟨idxErase s.cacheCoins.map op, s.cacheCoins.data.dropLast⟩ q hlqn,
                  mapEntry_none_of_lookup_none _ _ hlq]
            | some j =>
              obtain ⟨hjlt, hjkey⟩ := hmem _ (idxLookup_mem hlq)
              cases hgj : s.cacheCoins.data.get? j with
              | none => rw [hgj] at hjkey; cases hjkey
              | some prj =>
                rw [hgj] at hjkey
                have hjq : prj.1 = q := Option.some.inj hjkey
                have hji : j ≠ i := by
                  intro hh
                  rw [hh, hg] at hgj
                  have hpe := Option.some.inj hgj
                  exact hq (by rw [← hjq, ← hpe, hop])
                have hjlt2 : j < s.cacheCoins.data.length - 1 := by omega
                have hlq4 : idxLookup (idxErase s.cacheCoins.map op) q = some j := by
                  rw [idxLookup_erase_ne _ _ _ hq]
                  exact hlq
                have hgj2 : (s.cacheCoins.data.dropLast).get? j = some prj := by
                  rw [dropLast_get? _ _ hjlt2]
                  exact hgj
                rw [mapEntry_some
                      ⟨idxErase s.cacheCoins.map op, s.cacheCoins.data.dropLast⟩ q j prj
                      hlq4 hgj2,
                    mapEntry_some _ _ _ _ hlq hgj]
          · rw [hunc]
          · rw [hunc]
        · have hilt2 : i + 1 < s.cacheCoins.data.length := by omega
          cases hgL : s.cacheCoins.data.get? (s.cacheCoins.data.length - 1) with
          | none => exact absurd (List.get?_eq_none.mp hgL) (by omega)
          | some lastPr =>
            have hlast : s.cacheCoins.data.getLast? = some lastPr := by
              rw [List.getLast?_eq_getElem?, ← List.get?_eq_getElem?]
              exact hgL
            have hcomb : combinedErase s.cacheCoins op i =
                ⟨idxUpdate (idxErase s.cacheCoins.map op) lastPr.1 i,
                 (s.cacheCoins.data.set i lastPr).dropLast⟩ := by
              unfold combinedErase
              rw [if_neg hcase, hlast]
            rw [hcomb] at hunc
            have hslotL := hslot (s.cacheCoins.data.length - 1)
              (List.mem_range.mpr (by omega)) lastPr hgL
            have hlastne : lastPr.1 ≠ op := by
              intro hh
              rw [hh, hl] at hslotL
              have h2 := Option.some.inj hslotL
              omega
            refine ⟨?_, ?_, ?_, ?_⟩
            · rw [hunc]
              unfold viewEntry
              dsimp only
              have hlop : idxLookup
                  (idxUpdate (idxErase s.cacheCoins.map op) lastPr.1 i) op = none := by
                rw [idxLookup_update_ne _ _ _ _ (fun hh => hlastne hh.symm),
                    idxLookup_erase_self]
              exact mapEntry_none_of_lookup_none _ _ hlop
            · intro q hq
              rw [hunc]
              unfold viewEntry
              dsimp only
              by_cases hql : q = lastPr.1
              · subst hql
                have hlq2 : idxLookup
                    (idxUpdate (idxErase s.cacheCoins.map op) lastPr.1 i) lastPr.1
                    = some i :=
                  idxLookup_update_self _ _ _
                have hgq2 : ((s.cacheCoins.data.set i lastPr).dropLast).get? i
                    = some lastPr := by
                  rw [dropLast_get? _ _ (by rw [List.length_set]; omega)]
                  exact set_get?_self _ _ _ hilt
                rw [mapEntry_some
                      ⟨idxUpdate (idxErase s.cacheCoins.map op) lastPr.1 i,
                       (s.cacheCoins.data.set i lastPr).dropLast⟩ lastPr.1 i lastPr
                      hlq2 hgq2,
                    mapEntry_some _ _ _ _ hslotL hgL]
              · have hlq3 : idxLookup
                    (idxUpdate (idxErase s.cacheCoins.map op) lastPr.1 i) q
                    = idxLookup s.cacheCoins.map q := by
                  rw [idxLookup_update_ne _ _ _ _ hql, idxLookup_erase_ne _ _ _ hq]
                cases hlq : idxLookup s.cacheCoins.map q with
                | none =>
                  have hlqn : idxLookup
                      (idxUpdate (idxErase s.cacheCoins.map op) lastPr.1 i) q = none := by
                    rw [hlq3]
                    exact hlq
                  rw [mapEntry_none_of_lookup_none
                        ⟨idxUpdate (idxErase s.cacheCoins.map op) lastPr.1 i,
                         (s.cacheCoins.data.set i lastPr).dropLast⟩ q hlqn,
                      mapEntry_none_of_lookup_none _ _ hlq]
                | some j =>
                  obtain ⟨hjlt, hjkey⟩ := hmem _ (idxLookup_mem hlq)
                  cases hgj : s.cacheCoins.data.get? j with
                  | none => rw [hgj] at hjkey; cases hjkey
                  | some prj =>
                    rw [hgj] at hjkey
                    have hjq : prj.1 = q := Option.some.inj hjkey
                    have hji : j ≠ i := by
                      intro hh
                      rw [hh, hg] at hgj
                      have hpe := Option.some.inj hgj
                      exact hq (by rw [← hjq, ← hpe, hop])
                    have hjL : j ≠ s.cacheCoins.data.length - 1 := by
                      intro hh
                      rw [hh, hgL] at hgj
                      have hpe := Option.some.inj hgj
                      exact hql (by rw [← hjq, ← hpe])
                    have hj2 : j < s.cacheCoins.data.length - 1 := by omega
                    have hlq4 : idxLookup
                        (idxUpdate (idxErase s.cacheCoins.map op) lastPr.1 i) q
                        = some j := by
                      rw [hlq3]
                      exact hlq
                    have hgj2 : ((s.cacheCoins.data.set i lastPr).dropLast).get? j
                        = some prj := by
                      rw [dropLast_get? _ _ (by rw [List.length_set]; omega),
                          set_get?_ne _ _ _ _ (Ne.symm hji)]
                      exact hgj
                    rw [mapEntry_some
                          ⟨idxUpdate (idxErase s.cacheCoins.map op) lastPr.1 i,
                           (s.cacheCoins.data.set i lastPr).dropLast⟩ q j prj
                          hlq4 hgj2,
                        mapEntry_some _ _ _ _ hlq hgj]
            · rw [hunc]
            · rw [hunc]
  · intro hcl
    unfold Uncache
    cases hl : idxLookup s.cacheCoins.map op with
    | none => rfl
    | some i =>
      dsimp only
      cases hg : s.cacheCoins.data.get? i with
      | none => rfl
      | some pr =>
        dsimp only
        unfold hasCleanEntry viewEntry at hcl
        rw [mapEntry_some _ _ _ _ hl hg] at hcl
        dsimp only at hcl
        rw [hcl]
        rfl

/-- C8 witness: on the well formed two entry state, uncaching the clean entry
at opA leaves the association for opB unchanged and subtracts the usage of
the removed entry. -/
theorem C8_uncache_spec_witness :
    viewEntry (Uncache sC8 opA) opB = viewEntry sC8 opB ∧
    (Uncache sC8 opA).cachedCoinsUsage
      = sC8.cachedCoinsUsage
          - (⟨coinA, false, false⟩ : CacheEntry).coin.DynamicMemoryUsage :=
  let h := (C8_uncache_spec sC8 opA (by decide)).1 ⟨coinA, false, false⟩ (by decide) rfl rfl
  ⟨h.2.1 opB (by decide), h.2.2.1⟩

end UtxoCache
